import Mathlib

/-!
# HEIC bridge, PNG converter and QR reader: a shallow embedding

Verification development for `heic2png.cpp`, `qrcodereader.cpp` and
`qrr_copilot.cpp`.

* Pixel memory is a `List Byte`; a read or a write outside the allocated
  range has no defined value and is `none`.
* The products `y * stride` and `width * 3` of the two copy loops are computed
  in 32-bit `int`: a product above `INT_MAX` is a signed overflow, which has no
  defined value (`none`). Offsets inside `cv::Mat` and the row length inside
  the PNG encoder are `size_t` and are exact.
* The width and height the codec reports are integers: it reports `-1` for a
  plane it does not have, which is when it returns a null plane pointer.
* `std::string` is a `List Char`; `size_t` arithmetic is taken modulo `2^64`
  where the source relies on it (`npos + 1`).
* The three bridge routines are functions from the outcomes of the codec calls
  to the sequence of acquire / release / plane-read events the source performs
  up to the point where it returns, throws, or is killed by a read through a
  null pointer, together with the value handed back.
-/

namespace QRCodeReader

/-! ## Pixel memory -/

/-- One `uint8_t`. -/
abbrev Byte := Fin 256

/-- The largest 32-bit `int`. -/
def INT_MAX : Nat := 2 ^ 31 - 1

/-- The product of two non-negative `int` values, computed in `int`: undefined
(signed overflow) when it is above `INT_MAX`. -/
def intMul (a b : Nat) : Option Nat :=
  if a * b ≤ INT_MAX then some (a * b) else none

/-- Read `n` bytes starting at offset `off` of a memory block (the source side of
`memcpy`, or one scanline consumed by the PNG encoder). Nothing is read when
`n` is zero; otherwise the read is undefined out of bounds. -/
def readBytes (mem : List Byte) (off n : Nat) : Option (List Byte) :=
  if n = 0 then some []
  else if off + n ≤ mem.length then some ((mem.drop off).take n) else none

/-- Overwrite `src.length` bytes of `buf` starting at offset `off` (the
destination side of `memcpy`). Undefined out of bounds. -/
def writeBytes (buf : List Byte) (off : Nat) (src : List Byte) : Option (List Byte) :=
  if off + src.length ≤ buf.length then
    some (buf.take off ++ src ++ buf.drop (off + src.length))
  else none

/-- The pixel storage of `cv::Mat result(height, width, CV_8UC3)`: a dense block of
`height * width * 3` bytes (row step `width * 3`). The initial contents are
unspecified in C++; the model starts from zeroes. -/
def matCreate (height width : Nat) : List Byte :=
  List.replicate (height * width * 3) 0

/-- The loop of `heicToCvMat` (qrcodereader.cpp lines 44-46),
`for (int y = 0; y < height; y++) memcpy(result.ptr(y), data + y * stride, width * 3);`
with `y * stride` and `width * 3` computed in `int`, and `result.ptr(y)` being
`y * (width * 3)` bytes into the pixel storage (a `size_t` product inside the
matrix). The first numeric argument is the number of iterations still to run
(`height - y`), the second the loop variable `y`. -/
def copyLoop (data : List Byte) (stride width : Nat) :
    Nat → Nat → List Byte → Option (List Byte)
  | 0, _, result => some result
  | todo + 1, y, result =>
    match intMul y stride, intMul width 3 with
    | some off, some n =>
      match readBytes data off n with
      | none => none
      | some row =>
        match writeBytes result (y * (width * 3)) row with
        | none => none
        | some result' => copyLoop data stride width todo (y + 1) result'
    | _, _ => none

/-- Lines 43-46 of `heicToCvMat`: allocate the matrix and run the row copy from
`y = 0`. -/
def strideCopy (data : List Byte) (stride width height : Nat) : Option (List Byte) :=
  copyLoop data stride width height 0 (matCreate height width)

/-- The call `cv::cvtColor(result, result, cv::COLOR_RGB2BGR)` on a dense 3-channel
buffer: the first and third byte of every pixel are exchanged. -/
def cvtColorRGB2BGR : List Byte → List Byte
  | r :: g :: b :: rest => b :: g :: r :: cvtColorRGB2BGR rest
  | rest => rest

/-! ## PNG scanlines -/

/-- Lines 106-109 of `convert_heic_to_png`, from row `y` on:
`row_pointers[y] = data + y * stride` with `y * stride` computed in `int`, as
offsets from the plane base. The first argument is the number of rows still
to do. -/
def rowPointersFrom (stride : Nat) : Nat → Nat → Option (List Nat)
  | 0, _ => some []
  | todo + 1, y =>
    match intMul y stride with
    | none => none
    | some off => (rowPointersFrom stride todo (y + 1)).map (fun offs => off :: offs)

/-- Lines 106-109 of `convert_heic_to_png`: the row pointers of all rows. -/
def rowPointers (stride height : Nat) : Option (List Nat) :=
  rowPointersFrom stride height 0

/-- The call `png_write_image(png, rows)` for an image whose rows are `rowbytes`
long: the encoder consumes `rowbytes` bytes from each row pointer, in order. -/
def pngWriteImage (mem : List Byte) (rowbytes : Nat) : List Nat → Option (List (List Byte))
  | [] => some []
  | off :: offs =>
    match readBytes mem off rowbytes with
    | none => none
    | some row => (pngWriteImage mem rowbytes offs).map (fun rows => row :: rows)

/-- The scanline sequence `convert_heic_to_png` hands to the PNG encoder
(heic2png.cpp lines 101-110): for an 8-bit RGB header of the given width the
encoder takes `width * 3` bytes (its own `size_t` row length) from each row
pointer. -/
def pngScanlines (data : List Byte) (stride width height : Nat) : Option (List (List Byte)) :=
  match rowPointers stride height with
  | none => none
  | some offs => pngWriteImage data (width * 3) offs

/-! ## Specification side: the dense buffer -/

/-- Specification side, step 6 of the bridge: for each row `y` copy `width * 3`
bytes from `plane_base + y * stride` into `buffer + y * width * 3`, with exact
offsets. It is also what `cv::Mat::clone` does to a matrix that wraps the plane,
whose row offsets are `size_t` products. -/
def denseCopyLoop (data : List Byte) (stride width : Nat) :
    Nat → Nat → List Byte → Option (List Byte)
  | 0, _, result => some result
  | todo + 1, y, result =>
    match readBytes data (y * stride) (width * 3) with
    | none => none
    | some row =>
      match writeBytes result (y * (width * 3)) row with
      | none => none
      | some result' => denseCopyLoop data stride width todo (y + 1) result'

/-- Specification side: the dense buffer of `height * width * 3` bytes filled by
the row copy. -/
def denseCopy (data : List Byte) (stride width height : Nat) : Option (List Byte) :=
  denseCopyLoop data stride width height 0 (matCreate height width)

/-- The constant `std::string::npos`, the largest `size_t`. -/
def npos : Nat := 2 ^ 64 - 1

/-- The `size_t` a search function returns: the position found, or `npos`. -/
def toSizeT : Option Nat → Nat
  | some pos => pos
  | none => npos

/-- Highest position `q ≤ p` at which `pat` occurs in `s`, scanning downwards
from `p` as `std::string::rfind` does. -/
def rfindFrom (s pat : List Char) : Nat → Option Nat
  | 0 => if pat.isPrefixOf s then some 0 else none
  | p + 1 => if pat.isPrefixOf (s.drop (p + 1)) then some (p + 1) else rfindFrom s pat p

/-- The call `s.rfind(pat)`: position of the last occurrence of `pat` in `s`; `none` stands
for `npos`. An occurrence starts at `s.size() - pat.size()` at the latest. -/
def rfind (s pat : List Char) : Option Nat :=
  if pat.length ≤ s.length then rfindFrom s pat (s.length - pat.length) else none

/-- The call `s.replace(pos, len, r)`: the characters `[pos, pos + len)` of `s` (as many as
there are) are replaced by `r`; throws `std::out_of_range` (`none`) when
`pos > s.size()`. -/
def replace (s : List Char) (pos len : Nat) (r : List Char) : Option (List Char) :=
  if pos ≤ s.length then some (s.take pos ++ r ++ s.drop (pos + len)) else none

/-- Lines 48-53 of `convert_heic_to_png`:
`output_path = input_path; ext_pos = output_path.rfind(".heic");`
`if (ext_pos != npos) output_path.replace(ext_pos, 5, ".png");` -/
def outputPath (input_path : List Char) : Option (List Char) :=
  match rfind input_path ".heic".toList with
  | some ext_pos => replace input_path ext_pos 5 ".png".toList
  | none => some input_path

/-- The call `s.find_last_of(chars)`: position of the last character of `s` that is one of
`chars`; `none` stands for `npos`. -/
def find_last_of : List Char → List Char → Option Nat
  | [], _ => none
  | c :: cs, chars =>
    match find_last_of cs chars with
    | some i => some (i + 1)
    | none => if c ∈ chars then some 0 else none

/-- The call `s.substr(pos)`: the characters from `pos` to the end; throws
`std::out_of_range` (`none`) when `pos > s.size()`. -/
def substr (s : List Char) (pos : Nat) : Option (List Char) :=
  if pos ≤ s.length then some (s.drop pos) else none

/-- The function `::tolower` in the "C" locale: `A`..`Z` go to `a`..`z`, every other character
is unchanged. -/
def tolower (c : Char) : Char :=
  if 'A'.toNat ≤ c.toNat ∧ c.toNat ≤ 'Z'.toNat then Char.ofNat (c.toNat + 32) else c

/-- The function `isHeicFile` (qrcodereader.cpp lines 58-62). The position passed to `substr`
is `find_last_of(".") + 1` computed in `size_t`, so `npos + 1` wraps to `0`.
`none` is an escaping `std::out_of_range`. -/
def isHeicFile (filename : List Char) : Option Bool :=
  match substr filename ((toSizeT (find_last_of filename ".".toList) + 1) % 2 ^ 64) with
  | none => none
  | some ext =>
    let ext := ext.map tolower
    some (ext == "heic".toList || ext == "heif".toList)

/-- Specification side: two characters are the same letter when ASCII case is
disregarded: they are equal, or one is an upper-case ASCII letter and the
other is its lower-case form. -/
def sameLetter (c d : Char) : Bool :=
  c = d ||
  ('A'.toNat ≤ c.toNat && c.toNat ≤ 'Z'.toNat && d.toNat = c.toNat + 32) ||
  ('A'.toNat ≤ d.toNat && d.toNat ≤ 'Z'.toNat && c.toNat = d.toNat + 32)

/-- Specification side: equality of strings when ASCII letters are compared
without regard to case. -/
def eqIgnoreAsciiCase : List Char → List Char → Bool
  | [], [] => true
  | c :: cs, d :: ds => sameLetter c d && eqIgnoreAsciiCase cs ds
  | _, _ => false

/-- Specification side: `ext` is the text after the last `.` of `filename`. -/
def IsExtensionOf (ext filename : List Char) : Prop :=
  ∃ stem : List Char, filename = stem ++ '.' :: ext ∧ '.' ∉ ext

/-- The string `pat` occurs in `s` at position `pos`. -/
def OccursAt (pat s : List Char) (pos : Nat) : Prop :=
  ∃ before after : List Char, s = before ++ pat ++ after ∧ before.length = pos

/-! ## The bridge routines as event traces -/

/-- The native objects the programs acquire and release: the three codec objects
and the three encoder-side objects of the converter. -/
inductive Obj
  | ctx
  | handle
  | img
  | file
  | png
  | info
  deriving DecidableEq

/-- What a routine does to native objects and to the pixel plane. -/
inductive Event
  /-- A call returned a new live object. -/
  | acquire (o : Obj)
  /-- The release function of `o` was called on it. -/
  | release (o : Obj)
  /-- A read of `n > 0` bytes at offset `off` from the plane pointer. -/
  | readPlane (off n : Nat)
  deriving DecidableEq

/-- The outcomes of the codec calls of one invocation. -/
structure Codec where
  /-- `heif_context_alloc` returned a non-null context. -/
  allocOk : Bool
  /-- `heif_context_read_from_file` returned `heif_error_Ok`. -/
  readOk : Bool
  /-- `heif_context_get_primary_image_handle` returned `heif_error_Ok`. -/
  handleOk : Bool
  /-- `heif_decode_image` returned `heif_error_Ok`. -/
  decodeOk : Bool
  /-- `heif_image_get_plane_readonly`: the bytes of the plane, `none` for a null
  pointer. -/
  plane : Option (List Byte)
  /-- The stride written by `heif_image_get_plane_readonly` (not written, and
  not used below, when the plane is missing). -/
  stride : Nat
  /-- `heif_image_get_width`; the codec reports `-1` for a plane it does not have. -/
  width : Int
  /-- `heif_image_get_height`; the codec reports `-1` for a plane it does not have. -/
  height : Int

/-- A run of a routine: the events in program order, the value handed back, and
whether the run was killed. With `killed = false` the routine returned or
threw, and `result = none` is the failure report (`false`, an exception, an
empty image). With `killed = true` the process died in the last event of the
trace or in the call after it (a read through a null plane pointer, a codec
call on a null context, a matrix header over a negative size), and the routine
neither returned nor threw. -/
structure Run (α : Type) where
  trace : List Event
  result : Option α
  killed : Bool

/-- The bytes readable through the plane pointer: those of the plane while the
decoded image is live; none through a null pointer or after
`heif_image_release`. -/
def planeMem : Option (List Byte) → Bool → List Byte
  | some data, true => data
  | _, _ => []

/-- The reads of `rows` rows of `width * 3` bytes, row `y` at `y * stride`. -/
def planeReads (stride width rows : Nat) : List Event :=
  if width * 3 = 0 then []
  else (List.range rows).map (fun y => Event.readPlane (y * stride) (width * 3))

/-- The routine `heicToCvMat` (qrcodereader.cpp lines 8-56).
* The context is not checked: with a null context the codec call of line 13
  dereferences it.
* Line 43, `cv::Mat result(height, width, CV_8UC3)`, throws `cv::Exception` for a
  negative size (the matrix asserts every size to be `>= 0`); the release calls
  of lines 49-51 are then not reached.
* The plane pointer is not checked: the first `memcpy` of a non-empty row reads
  through it.
* Line 54, `cv::cvtColor`, throws `cv::Exception` for an empty matrix, after the
  release calls.
The value is the BGR buffer, `none` inside when a byte it is made of was not
defined. -/
def heicToCvMat (c : Codec) : Run (Option (List Byte)) :=
  if !c.allocOk then ⟨[], none, true⟩
  else if !c.readOk then ⟨[Event.acquire Obj.ctx, Event.release Obj.ctx], none, false⟩
  else if !c.handleOk then ⟨[Event.acquire Obj.ctx, Event.release Obj.ctx], none, false⟩
  else if !c.decodeOk then
    ⟨[Event.acquire Obj.ctx, Event.acquire Obj.handle,
      Event.release Obj.handle, Event.release Obj.ctx], none, false⟩
  else
    let decoded := [Event.acquire Obj.ctx, Event.acquire Obj.handle, Event.acquire Obj.img]
    let cleanup := [Event.release Obj.img, Event.release Obj.handle, Event.release Obj.ctx]
    if c.height < 0 ∨ c.width < 0 then ⟨decoded, none, false⟩
    else if c.height.toNat = 0 ∨ c.width.toNat = 0 then ⟨decoded ++ cleanup, none, false⟩
    else
      match c.plane with
      | none => ⟨decoded ++ [Event.readPlane 0 (c.width.toNat * 3)], none, true⟩
      | some data =>
        ⟨decoded ++ planeReads c.stride c.width.toNat c.height.toNat ++ cleanup,
         some ((strideCopy data c.stride c.width.toNat c.height.toNat).map cvtColorRGB2BGR),
         false⟩

/-- The routine `readHEIC` (qrr_copilot.cpp lines 7-53).
* The context is not checked: with a null context the codec call of line 9
  dereferences it.
* The plane pointer is checked (lines 35-41).
* The matrix built at line 46 only wraps the plane pointer; over a negative
  size it has no defined meaning.
* The three release calls come next, and `image.clone()` at line 52 reads the
  plane after them; the clone of an empty matrix is empty and reads nothing. -/
def readHEIC (c : Codec) : Run (Option (List Byte)) :=
  if !c.allocOk then ⟨[], none, true⟩
  else if !c.readOk then ⟨[Event.acquire Obj.ctx, Event.release Obj.ctx], none, false⟩
  else if !c.handleOk then ⟨[Event.acquire Obj.ctx, Event.release Obj.ctx], none, false⟩
  else if !c.decodeOk then
    ⟨[Event.acquire Obj.ctx, Event.acquire Obj.handle,
      Event.release Obj.handle, Event.release Obj.ctx], none, false⟩
  else
    let released := [Event.acquire Obj.ctx, Event.acquire Obj.handle, Event.acquire Obj.img,
      Event.release Obj.img, Event.release Obj.handle, Event.release Obj.ctx]
    if c.plane.isNone then ⟨released, none, false⟩
    else if c.height < 0 ∨ c.width < 0 then
      ⟨[Event.acquire Obj.ctx, Event.acquire Obj.handle, Event.acquire Obj.img], none, true⟩
    else if c.height.toNat = 0 ∨ c.width.toNat = 0 then ⟨released, none, false⟩
    else
      ⟨released ++ planeReads c.stride c.width.toNat c.height.toNat,
       some (denseCopy (planeMem c.plane false) c.stride c.width.toNat c.height.toNat),
       false⟩

/-- What `convert_heic_to_png` leaves behind on success. -/
structure PngFile where
  path : List Char
  /-- The scanlines handed to the encoder; `none` when a byte was not defined. -/
  scanlines : Option (List (List Byte))
  deriving DecidableEq

/-- The header check of `png_set_IHDR` (line 101), which takes the dimensions as
`png_uint_32`: a zero and a value above `2^31 - 1` (a negative `int`) are
rejected with `png_error`, which takes the `setjmp` branch of line 88. Rejections
that depend on the build of the encoder (its user limits) are instances of
`pngFault` below. -/
def pngHeaderValid (width height : Int) : Bool :=
  decide (0 < width) && decide (0 < height)

/-- The routine `convert_heic_to_png` (heic2png.cpp lines 7-121). Besides the
codec outcomes: whether `fopen`, `png_create_write_struct` and
`png_create_info_struct` succeed, and `pngFault = some k` when the encoder
reports an error (the `setjmp` branch is taken) after having consumed `k`
scanlines; an invalid header is such an error before any scanline. The plane
pointer is not checked: the first scanline the encoder consumes is read
through it. -/
def convert_heic_to_png (input_path : List Char) (c : Codec)
    (fopenOk pngOk infoOk : Bool) (pngFault : Option Nat) : Run PngFile :=
  if !c.allocOk then ⟨[], none, false⟩
  else if !c.readOk then ⟨[Event.acquire Obj.ctx, Event.release Obj.ctx], none, false⟩
  else if !c.handleOk then ⟨[Event.acquire Obj.ctx, Event.release Obj.ctx], none, false⟩
  else if !c.decodeOk then
    ⟨[Event.acquire Obj.ctx, Event.acquire Obj.handle,
      Event.release Obj.handle, Event.release Obj.ctx], none, false⟩
  else
    let decoded := [Event.acquire Obj.ctx, Event.acquire Obj.handle, Event.acquire Obj.img]
    let cleanup := [Event.release Obj.img, Event.release Obj.handle, Event.release Obj.ctx]
    match outputPath input_path with
    | none => ⟨decoded, none, false⟩
    | some output_path =>
      if !fopenOk then ⟨decoded ++ cleanup, none, false⟩
      else if !pngOk then
        ⟨decoded ++ [Event.acquire Obj.file, Event.release Obj.file] ++ cleanup, none, false⟩
      else if !infoOk then
        ⟨decoded ++ [Event.acquire Obj.file, Event.acquire Obj.png,
            Event.release Obj.png, Event.release Obj.file] ++ cleanup, none, false⟩
      else
        let encoder := [Event.acquire Obj.file, Event.acquire Obj.png, Event.acquire Obj.info]
        let destroy := [Event.release Obj.png, Event.release Obj.info, Event.release Obj.file]
        match (if pngHeaderValid c.width c.height then pngFault else some 0), c.plane with
        | some k, none =>
          if min k c.height.toNat = 0 then ⟨decoded ++ encoder ++ destroy ++ cleanup, none, false⟩
          else ⟨decoded ++ encoder ++ [Event.readPlane 0 (c.width.toNat * 3)], none, true⟩
        | some k, some _ =>
          ⟨decoded ++ encoder ++ planeReads c.stride c.width.toNat (min k c.height.toNat)
            ++ destroy ++ cleanup, none, false⟩
        | none, none =>
          ⟨decoded ++ encoder ++ [Event.readPlane 0 (c.width.toNat * 3)], none, true⟩
        | none, some data =>
          ⟨decoded ++ encoder ++ planeReads c.stride c.width.toNat c.height.toNat
            ++ destroy ++ cleanup,
           some ⟨output_path, pngScanlines data c.stride c.width.toNat c.height.toNat⟩,
           false⟩

/-! ## Properties of traces -/

/-- One event against the set of live objects: acquiring a live object or
releasing one that is not live is an error. -/
def stepLive (live : List Obj) : Event → Option (List Obj)
  | Event.acquire o => if o ∈ live then none else some (o :: live)
  | Event.release o => if o ∈ live then some (live.erase o) else none
  | Event.readPlane _ _ => some live

/-- Replay of a trace from a set of live objects. -/
def runTrace : List Obj → List Event → Option (List Obj)
  | live, [] => some live
  | live, e :: es =>
    match stepLive live e with
    | none => none
    | some live' => runTrace live' es

/-- Every object acquired in the trace is released exactly once, after its
acquisition, and nothing is live at the end. -/
def balanced (t : List Event) : Bool :=
  runTrace [] t == some []

def isPlaneRead : Event → Bool
  | Event.readPlane _ _ => true
  | _ => false

def isImgRelease : Event → Bool
  | Event.release Obj.img => true
  | _ => false

/-- Some plane read comes after the release of the decoded image
(`heif_image_release`): there is a read in what follows the first release. -/
def readsAfterRelease (t : List Event) : Bool :=
  (t.dropWhile (fun e => !isImgRelease e)).any isPlaneRead

/-! ## Lemmas on the memory model -/

theorem isPrefixOf_drop_iff (pat s : List Char) (pos : Nat) (hpos : pos ≤ s.length) :
    pat.isPrefixOf (s.drop pos) = true ↔ OccursAt pat s pos := by
  rw [ List.isPrefixOf_iff_prefix]
  constructor
  · rintro ⟨after, h⟩
    refine ⟨s.take pos, after, ?_, by simp [hpos]⟩
    rw [List.append_assoc, h, List.take_append_drop]
  · rintro ⟨before, after, rfl, rfl⟩
    exact ⟨after, by simp⟩

theorem OccursAt.le {pat s : List Char} {pos : Nat} (h : OccursAt pat s pos) :
    pos + pat.length ≤ s.length := by
  obtain ⟨before, after, rfl, rfl⟩ := h
  simp

theorem rfindFrom_some (s pat : List Char) :
    ∀ (p q : Nat), rfindFrom s pat p = some q →
      q ≤ p ∧ pat.isPrefixOf (s.drop q) = true ∧
        ∀ q', q < q' → q' ≤ p → pat.isPrefixOf (s.drop q') = false
  | 0, q, h => by
    unfold rfindFrom at h
    split at h
    · next hm =>
      obtain rfl : 0 = q := by simpa using h
      exact ⟨le_refl _, by simpa using hm, fun q' h1 h2 => by omega⟩
    · simp at h
  | p + 1, q, h => by
    unfold rfindFrom at h
    split at h
    · next hm =>
      obtain rfl : p + 1 = q := by simpa using h
      exact ⟨le_refl _, hm, fun q' h1 h2 => by omega⟩
    · next hm =>
      obtain ⟨h1, h2, h3⟩ := rfindFrom_some s pat p q h
      refine ⟨by omega, h2, ?_⟩
      intro q' hq hq'
      rcases Nat.lt_or_ge p q' with hlt | hge
      · obtain rfl : q' = p + 1 := by omega
        exact Bool.eq_false_iff.mpr hm
      · exact h3 q' hq hge

theorem rfindFrom_none (s pat : List Char) :
    ∀ p : Nat, rfindFrom s pat p = none → ∀ q, q ≤ p → pat.isPrefixOf (s.drop q) = false
  | 0, h, q, hq => by
    obtain rfl : q = 0 := by omega
    unfold rfindFrom at h
    split at h
    · simp at h
    · next hm => exact Bool.eq_false_iff.mpr hm
  | p + 1, h, q, hq => by
    unfold rfindFrom at h
    split at h
    · simp at h
    · next hm =>
      rcases Nat.lt_or_ge p q with hlt | hge
      · obtain rfl : q = p + 1 := by omega
        exact Bool.eq_false_iff.mpr hm
      · exact rfindFrom_none s pat p h q hge

/-- The search `rfind` returns the position of the last occurrence. -/
theorem rfind_eq_some_of_last (s pat : List Char) (pos : Nat) (h : OccursAt pat s pos)
    (hlast : ∀ pos', OccursAt pat s pos' → pos' ≤ pos) : rfind s pat = some pos := by
  have hle := h.le
  unfold rfind
  rw [if_pos (by omega)]
  cases hr : rfindFrom s pat (s.length - pat.length) with
  | none =>
    have := rfindFrom_none s pat _ hr pos (by omega)
    rw [(isPrefixOf_drop_iff pat s pos (by omega)).2 h] at this
    simp at this
  | some q =>
    obtain ⟨h1, h2, h3⟩ := rfindFrom_some s pat _ q hr
    have hq : OccursAt pat s q := (isPrefixOf_drop_iff pat s q (by omega)).1 h2
    have hqp := hlast q hq
    rcases Nat.lt_or_ge q pos with hlt | hge
    · have := h3 pos hlt (by omega)
      rw [(isPrefixOf_drop_iff pat s pos (by omega)).2 h] at this
      simp at this
    · have hqe : q = pos := by omega
      rw [hqe]

theorem rfind_eq_none (s pat : List Char) (h : ¬ ∃ pos, OccursAt pat s pos) :
    rfind s pat = none := by
  unfold rfind
  split
  · cases hr : rfindFrom s pat (s.length - pat.length) with
    | none => rfl
    | some q =>
      obtain ⟨h1, h2, _⟩ := rfindFrom_some s pat _ q hr
      exact absurd ⟨q, (isPrefixOf_drop_iff pat s q (by omega)).1 h2⟩ h
  · rfl

/-- A string that contains `pat` has a last occurrence of it. -/
theorem exists_last_occurrence (s pat : List Char) (h : ∃ pos, OccursAt pat s pos) :
    ∃ pos, OccursAt pat s pos ∧ ∀ pos', OccursAt pat s pos' → pos' ≤ pos := by
  obtain ⟨p0, hp0⟩ := h
  have hle := hp0.le
  cases hr : rfindFrom s pat (s.length - pat.length) with
  | none =>
    have := rfindFrom_none s pat _ hr p0 (by omega)
    rw [(isPrefixOf_drop_iff pat s p0 (by omega)).2 hp0] at this
    simp at this
  | some q =>
    obtain ⟨h1, h2, h3⟩ := rfindFrom_some s pat _ q hr
    refine ⟨q, (isPrefixOf_drop_iff pat s q (by omega)).1 h2, ?_⟩
    intro pos' hpos'
    have hle' := hpos'.le
    by_contra hgt
    have := h3 pos' (by omega) (by omega)
    rw [(isPrefixOf_drop_iff pat s pos' (by omega)).2 hpos'] at this
    simp at this

theorem outputPath_of_last (before after : List Char)
    (hlast : ∀ pos', OccursAt ".heic".toList (before ++ ".heic".toList ++ after) pos' →
      pos' ≤ before.length) :
    outputPath (before ++ ".heic".toList ++ after) = some (before ++ ".png".toList ++ after) := by
  have hocc : OccursAt ".heic".toList (before ++ ".heic".toList ++ after) before.length :=
    ⟨before, after, rfl, rfl⟩
  unfold outputPath
  rw [rfind_eq_some_of_last _ _ _ hocc hlast]
  simp only [replace]
  rw [if_pos (by simp)]
  congr 2
  · congr 1
    rw [List.append_assoc, List.take_left' rfl]
  · have : before.length + 5 = (before ++ ".heic".toList).length := by simp
    rw [this, List.drop_left' rfl]

/-- C4. Output path, suffix case: for every `stem` (also one that itself
contains `.heic`), the output path derived from `stem ++ ".heic"` is
`stem ++ ".png"`; in particular `input.heic` gives `input.png`. -/
theorem outputPath_suffix (stem : List Char) :
    outputPath (stem ++ ".heic".toList) = some (stem ++ ".png".toList) := by
  have h := outputPath_of_last stem [] (by
    intro pos' hpos'
    have := hpos'.le
    simp at this
    omega)
  simpa using h

/-- C5. Output path, identity fallback: an input path that does not contain the
exact-case substring `.heic` is its own output path. -/
theorem outputPath_identity (input_path : List Char)
    (h : ¬ ∃ before after : List Char, input_path = before ++ ".heic".toList ++ after) :
    outputPath input_path = some input_path := by
  have hn : ¬ ∃ pos, OccursAt ".heic".toList input_path pos := by
    rintro ⟨pos, before, after, hs, _⟩
    exact h ⟨before, after, hs⟩
  unfold outputPath
  rw [rfind_eq_none _ _ hn]

/-- C5 at `photo.HEIC`: the upper-case extension is not matched. -/
theorem outputPath_identity_witness :
    (¬ ∃ before after : List Char, "photo.HEIC".toList = before ++ ".heic".toList ++ after) ∧
      outputPath "photo.HEIC".toList = some "photo.HEIC".toList :=
  have h : ¬ ∃ before after : List Char,
      "photo.HEIC".toList = before ++ ".heic".toList ++ after := by
    rintro ⟨before, after, hs⟩
    have hocc : OccursAt ".heic".toList "photo.HEIC".toList before.length :=
      ⟨before, after, hs, rfl⟩
    have hle := hocc.le
    have hm := (isPrefixOf_drop_iff _ _ _ (by omega)).2 hocc
    have hb : before.length < 6 := by
      simp at hle; omega
    revert hm
    generalize before.length = n at hb
    interval_cases n <;> decide
  ⟨h, outputPath_identity "photo.HEIC".toList h⟩

/-- C6 as stated fails: in `a.heic.heic` the first occurrence of `.heic` is at
position 1, and replacing it would give `a.png.heic`; the code gives
`a.heic.png`. -/
theorem outputPath_first_occurrence_counterexample :
    ∃ before after : List Char,
      "a.heic.heic".toList = before ++ ".heic".toList ++ after ∧
      (∀ before' after' : List Char, "a.heic.heic".toList = before' ++ ".heic".toList ++ after' →
        before.length ≤ before'.length) ∧
      outputPath "a.heic.heic".toList ≠ some (before ++ ".png".toList ++ after) ∧
      outputPath "a.heic.heic".toList = some "a.heic.png".toList := by
  refine ⟨"a".toList, ".heic".toList, by decide, ?_, by decide, by decide⟩
  intro before' after' hs
  cases before' with
  | nil => simp at hs
  | cons c cs => simp

/-- C6, amended. For every input path that contains `.heic`, the output path is
the input path with the last (rightmost) occurrence of `.heic` replaced by
`.png` and every other character, any earlier occurrence included, unchanged. -/
theorem outputPath_last_occurrence (input_path : List Char)
    (h : ∃ before after : List Char, input_path = before ++ ".heic".toList ++ after) :
    ∃ before after : List Char,
      input_path = before ++ ".heic".toList ++ after ∧
      (∀ before' after' : List Char, input_path = before' ++ ".heic".toList ++ after' →
        before'.length ≤ before.length) ∧
      outputPath input_path = some (before ++ ".png".toList ++ after) := by
  obtain ⟨b0, a0, h0⟩ := h
  obtain ⟨pos, ⟨before, after, hs, hpos⟩, hlast⟩ :=
    exists_last_occurrence input_path ".heic".toList ⟨b0.length, b0, a0, h0, rfl⟩
  subst hs hpos
  exact ⟨before, after, rfl, fun before' after' hs' => hlast _ ⟨before', after', hs', rfl⟩,
    outputPath_of_last before after hlast⟩

/-- C6 amended, at `a.heic.heic`: the result is `a.heic.png`. -/
theorem outputPath_last_occurrence_witness :
    (∃ before after : List Char, "a.heic.heic".toList = before ++ ".heic".toList ++ after) ∧
    ∃ before after : List Char,
      "a.heic.heic".toList = before ++ ".heic".toList ++ after ∧
      (∀ before' after' : List Char, "a.heic.heic".toList = before' ++ ".heic".toList ++ after' →
        before'.length ≤ before.length) ∧
      outputPath "a.heic.heic".toList = some (before ++ ".png".toList ++ after) :=
  have h : ∃ before after : List Char,
      "a.heic.heic".toList = before ++ ".heic".toList ++ after :=
    ⟨"a".toList, ".heic".toList, by decide⟩
  ⟨h, outputPath_last_occurrence "a.heic.heic".toList h⟩

/-! ## Extension classification (C7, C10) -/

theorem char_eq_iff (c d : Char) : c = d ↔ c.toNat = d.toNat := by
  constructor
  · rintro rfl; rfl
  · intro h
    apply Char.ext
    exact UInt32.ext (by simpa [Char.toNat] using h)

theorem toNat_ofNat_add_32 (n : Nat) (h1 : 65 ≤ n) (h2 : n ≤ 90) :
    (Char.ofNat (n + 32)).toNat = n + 32 := by
  interval_cases n <;> decide

theorem toNat_tolower (c : Char) :
    (tolower c).toNat = if 65 ≤ c.toNat ∧ c.toNat ≤ 90 then c.toNat + 32 else c.toNat := by
  have hA : 'A'.toNat = 65 := by decide
  have hZ : 'Z'.toNat = 90 := by decide
  unfold tolower
  rw [hA, hZ]
  split
  · next h => exact toNat_ofNat_add_32 _ h.1 h.2
  · rfl

theorem sameLetter_iff (c d : Char) : sameLetter c d = true ↔ tolower c = tolower d := by
  have hA : 'A'.toNat = 65 := by decide
  have hZ : 'Z'.toNat = 90 := by decide
  rw [char_eq_iff (tolower c), toNat_tolower, toNat_tolower]
  simp only [sameLetter, hA, hZ, Bool.or_eq_true, Bool.and_eq_true, decide_eq_true_eq,
    char_eq_iff c d]
  split <;> split <;> omega

theorem eqIgnoreAsciiCase_iff :
    ∀ a b : List Char, eqIgnoreAsciiCase a b = true ↔ a.map tolower = b.map tolower
  | [], [] => by simp [eqIgnoreAsciiCase]
  | [], _ :: _ => by simp [eqIgnoreAsciiCase]
  | _ :: _, [] => by simp [eqIgnoreAsciiCase]
  | c :: cs, d :: ds => by
    simp [eqIgnoreAsciiCase, sameLetter_iff, eqIgnoreAsciiCase_iff cs ds]

theorem eqIgnoreAsciiCase_length {a b : List Char} (h : eqIgnoreAsciiCase a b = true) :
    a.length = b.length := by
  have := congrArg List.length ((eqIgnoreAsciiCase_iff a b).1 h)
  simpa using this

theorem sameLetter_dot (c d : Char) (h : sameLetter c d = true) :
    c ∈ ".".toList ↔ d ∈ ".".toList := by
  have hA : 'A'.toNat = 65 := by decide
  have hZ : 'Z'.toNat = 90 := by decide
  have hdot : '.'.toNat = 46 := by decide
  have hl : ".".toList = ['.'] := rfl
  simp only [sameLetter, hA, hZ, Bool.or_eq_true, Bool.and_eq_true, decide_eq_true_eq,
    char_eq_iff c d] at h
  simp only [hl, List.mem_singleton, char_eq_iff _ '.', hdot]
  omega

theorem find_last_of_congr :
    ∀ a b : List Char, eqIgnoreAsciiCase a b = true →
      find_last_of a ".".toList = find_last_of b ".".toList
  | [], [], _ => rfl
  | [], _ :: _, h => by simp [eqIgnoreAsciiCase] at h
  | _ :: _, [], h => by simp [eqIgnoreAsciiCase] at h
  | c :: cs, d :: ds, h => by
    simp only [eqIgnoreAsciiCase, Bool.and_eq_true] at h
    have ih := find_last_of_congr cs ds h.2
    have hd := sameLetter_dot c d h.1
    simp only [find_last_of, ih]
    cases find_last_of ds ".".toList with
    | some i => rfl
    | none => simp only [hd]

theorem find_last_of_eq_none (chars : List Char) :
    ∀ s : List Char, (∀ c ∈ s, c ∉ chars) → find_last_of s chars = none
  | [], _ => rfl
  | c :: cs, h => by
    have ih := find_last_of_eq_none chars cs (fun x hx => h x (by simp [hx]))
    have hc : c ∉ chars := h c (by simp)
    simp [find_last_of, ih, hc]

theorem find_last_of_lt (chars : List Char) :
    ∀ (s : List Char) (p : Nat), find_last_of s chars = some p → p < s.length
  | [], p, h => by simp [find_last_of] at h
  | c :: cs, p, h => by
    simp only [find_last_of] at h
    cases hr : find_last_of cs chars with
    | some i =>
      have := find_last_of_lt chars cs i hr
      simp [hr] at h
      simp; omega
    | none =>
      simp [hr] at h
      simp; omega

/-- The character found is the last `.`: everything after it has none. -/
theorem find_last_of_append_dot (ext : List Char) (hext : '.' ∉ ext) :
    ∀ stem : List Char, find_last_of (stem ++ '.' :: ext) ".".toList = some stem.length
  | [] => by
    have hn := find_last_of_eq_none ".".toList ext (fun c hc => by
      have hl : ".".toList = ['.'] := rfl
      rw [hl, List.mem_singleton]
      rintro rfl
      exact hext hc)
    have hl : '.' ∈ ".".toList := by decide
    simp only [List.nil_append, find_last_of, hn, hl, if_true, List.length_nil]
  | c :: cs => by
    have ih := find_last_of_append_dot ext hext cs
    show find_last_of (c :: (cs ++ '.' :: ext)) ".".toList = some (cs.length + 1)
    simp only [find_last_of, ih]

/-- The decision of `isHeicFile` in terms of the lower-cased file name. -/
theorem isHeicFile_eq (filename : List Char) :
    isHeicFile filename =
      if (toSizeT (find_last_of filename ".".toList) + 1) % 2 ^ 64 ≤ filename.length then
        some ((filename.map tolower).drop
              ((toSizeT (find_last_of filename ".".toList) + 1) % 2 ^ 64) == "heic".toList ||
            (filename.map tolower).drop
              ((toSizeT (find_last_of filename ".".toList) + 1) % 2 ^ 64) == "heif".toList)
      else none := by
  unfold isHeicFile substr
  by_cases h : (toSizeT (find_last_of filename ".".toList) + 1) % 2 ^ 64 ≤ filename.length
  · rw [if_pos h, if_pos h]
    simp only [List.map_drop]
  · rw [if_neg h, if_neg h]

theorem isHeicFile_congr (a b : List Char) (h : eqIgnoreAsciiCase a b = true) :
    isHeicFile a = isHeicFile b := by
  rw [isHeicFile_eq, isHeicFile_eq, find_last_of_congr a b h, eqIgnoreAsciiCase_length h,
    (eqIgnoreAsciiCase_iff a b).1 h]

theorem beq_heic (ext : List Char) :
    (ext.map tolower == "heic".toList) = eqIgnoreAsciiCase ext "heic".toList := by
  have hl : "heic".toList.map tolower = "heic".toList := by decide
  rw [Bool.eq_iff_iff, eqIgnoreAsciiCase_iff, hl]
  simp

theorem beq_heif (ext : List Char) :
    (ext.map tolower == "heif".toList) = eqIgnoreAsciiCase ext "heif".toList := by
  have hl : "heif".toList.map tolower = "heif".toList := by decide
  rw [Bool.eq_iff_iff, eqIgnoreAsciiCase_iff, hl]
  simp

/-- Every file name with a `.` has a text after its last `.`. -/
theorem exists_extension :
    ∀ filename : List Char, '.' ∈ filename → ∃ ext, IsExtensionOf ext filename
  | [], h => by simp at h
  | c :: cs, h => by
    by_cases hcs : '.' ∈ cs
    · obtain ⟨ext, stem, hs, hext⟩ := exists_extension cs hcs
      exact ⟨ext, c :: stem, by rw [hs]; rfl, hext⟩
    · have hc : c = '.' := by
        rcases List.mem_cons.1 h with h | h
        · exact h.symm
        · exact absurd h hcs
      exact ⟨cs, [], by rw [hc]; rfl, hcs⟩

/-- C7. Extension classification is case-insensitive: a file name that contains a
`.` (and has a length a `std::string` can have) has a text `ext` after its last
`.`, and `isHeicFile` returns true exactly when `ext` equals `heic` or `heif`
with ASCII letters compared without regard to case; a file name obtained by
changing the case of ASCII letters gets the same answer. -/
theorem isHeicFile_case_insensitive (filename : List Char)
    (hlen : filename.length < 2 ^ 64) (hdot : '.' ∈ filename) :
    (∃ ext, IsExtensionOf ext filename) ∧
      (∀ ext, IsExtensionOf ext filename →
        isHeicFile filename =
          some (eqIgnoreAsciiCase ext "heic".toList || eqIgnoreAsciiCase ext "heif".toList)) ∧
      ∀ other : List Char, eqIgnoreAsciiCase filename other = true →
        isHeicFile other = isHeicFile filename := by
  refine ⟨exists_extension filename hdot, ?_,
    fun other h => (isHeicFile_congr filename other h).symm⟩
  rintro ext ⟨stem, rfl, hext⟩
  have hpos : (stem.length + 1) % 2 ^ 64 = stem.length + 1 := by
    apply Nat.mod_eq_of_lt
    simp at hlen
    omega
  have hdrop : (stem ++ '.' :: ext).drop (stem.length + 1) = ext := by
    have : stem ++ '.' :: ext = (stem ++ ['.']) ++ ext := by simp
    rw [this, List.drop_left' (by simp)]
  unfold isHeicFile substr
  rw [find_last_of_append_dot ext hext stem]
  simp only [toSizeT, hpos]
  rw [if_pos (by simp), hdrop]
  simp only [beq_heic, beq_heif]

/-- C7 at `IMG.HeiC`: the mixed-case extension is recognised, and `img.heic`
gets the same answer. -/
theorem isHeicFile_case_insensitive_witness :
    "IMG.HeiC".toList.length < 2 ^ 64 ∧ '.' ∈ "IMG.HeiC".toList ∧
      IsExtensionOf "HeiC".toList "IMG.HeiC".toList ∧
      isHeicFile "IMG.HeiC".toList = some true ∧
      isHeicFile "img.heic".toList = isHeicFile "IMG.HeiC".toList :=
  have hlen : "IMG.HeiC".toList.length < 2 ^ 64 := by decide
  have hdot : '.' ∈ "IMG.HeiC".toList := by decide
  have hext : IsExtensionOf "HeiC".toList "IMG.HeiC".toList := ⟨"IMG".toList, by decide, by decide⟩
  ⟨hlen, hdot, hext,
    (isHeicFile_case_insensitive "IMG.HeiC".toList hlen hdot).2.1 "HeiC".toList hext,
    (isHeicFile_case_insensitive "IMG.HeiC".toList hlen hdot).2.2 "img.heic".toList (by decide)⟩

/-- C10. File name without a dot: `isHeicFile` returns a value for every file
name, never escaping with an out-of-range position (the empty name and a name
ending in `.` included); when the name has no `.`, the whole name is taken as
the extension, so the answer is true exactly when the whole name equals `heic`
or `heif` ignoring ASCII case. -/
theorem isHeicFile_no_dot (filename : List Char) :
    (∃ b, isHeicFile filename = some b) ∧
      ('.' ∉ filename →
        isHeicFile filename =
          some (eqIgnoreAsciiCase filename "heic".toList ||
            eqIgnoreAsciiCase filename "heif".toList)) := by
  constructor
  · rw [isHeicFile_eq]
    have hpos : (toSizeT (find_last_of filename ".".toList) + 1) % 2 ^ 64 ≤ filename.length := by
      cases hr : find_last_of filename ".".toList with
      | none => simp [toSizeT, npos]
      | some p =>
        have := find_last_of_lt _ _ _ hr
        have := Nat.mod_le (p + 1) (2 ^ 64)
        simp only [toSizeT]
        omega
    rw [if_pos hpos]
    exact ⟨_, rfl⟩
  · intro hdot
    have hn := find_last_of_eq_none ".".toList filename (fun c hc => by
      have hl : ".".toList = ['.'] := rfl
      rw [hl, List.mem_singleton]
      rintro rfl
      exact hdot hc)
    have hwrap : (npos + 1) % 2 ^ 64 = 0 := by decide
    unfold isHeicFile substr
    rw [hn]
    simp only [toSizeT, hwrap]
    rw [if_pos (Nat.zero_le _)]
    simp only [List.drop_zero, beq_heic, beq_heif]

/-- C10 at `HEIC`, `photo`, the empty name and `a.`. -/
theorem isHeicFile_no_dot_witness :
    '.' ∉ "HEIC".toList ∧ isHeicFile "HEIC".toList = some true ∧
      '.' ∉ "photo".toList ∧ isHeicFile "photo".toList = some false ∧
      '.' ∉ "".toList ∧ isHeicFile "".toList = some false ∧
      ∃ b, isHeicFile "a.".toList = some b :=
  ⟨by decide, (isHeicFile_no_dot "HEIC".toList).2 (by decide),
    by decide, (isHeicFile_no_dot "photo".toList).2 (by decide),
    by decide, (isHeicFile_no_dot "".toList).2 (by decide),
    (isHeicFile_no_dot "a.".toList).1⟩

/-! ## Lemmas on traces -/

theorem rfind_le (s pat : List Char) (pos : Nat) (h : rfind s pat = some pos) :
    pos ≤ s.length := by
  unfold rfind at h
  split at h
  · have := (rfindFrom_some s pat _ pos h).1
    omega
  · simp at h

/-- The `replace` call of the output-path derivation never throws. -/
theorem outputPath_isSome (input_path : List Char) :
    ∃ output_path, outputPath input_path = some output_path := by
  unfold outputPath
  cases hr : rfind input_path ".heic".toList with
  | none => exact ⟨_, rfl⟩
  | some pos =>
    have := rfind_le _ _ _ hr
    simp only [replace]
    rw [if_pos this]
    exact ⟨_, rfl⟩

/-- The replay rejects a leak, a double release, a release before the
acquisition and a double acquisition; reads do not matter. -/
theorem balanced_rejects :
    balanced [Event.acquire Obj.ctx] = false ∧
    balanced [Event.acquire Obj.ctx, Event.release Obj.ctx, Event.release Obj.ctx] = false ∧
    balanced [Event.release Obj.ctx, Event.acquire Obj.ctx] = false ∧
    balanced [Event.acquire Obj.ctx, Event.acquire Obj.ctx, Event.release Obj.ctx] = false ∧
    balanced [Event.acquire Obj.ctx, Event.readPlane 0 3, Event.release Obj.ctx] = true := by
  decide

theorem isImgRelease_acquire (o : Obj) : isImgRelease (Event.acquire o) = false := rfl

theorem isImgRelease_release (o : Obj) :
    isImgRelease (Event.release o) = decide (o = Obj.img) := by
  cases o <;> rfl

theorem isImgRelease_readPlane (off n : Nat) : isImgRelease (Event.readPlane off n) = false :=
  rfl

theorem isPlaneRead_acquire (o : Obj) : isPlaneRead (Event.acquire o) = false := rfl

theorem isPlaneRead_release (o : Obj) : isPlaneRead (Event.release o) = false := rfl

theorem dropWhile_planeReads_append (stride width rows : Nat) (rest : List Event) :
    (planeReads stride width rows ++ rest).dropWhile (fun e => !isImgRelease e) =
      rest.dropWhile (fun e => !isImgRelease e) := by
  unfold planeReads
  split
  · rfl
  · induction List.range rows with
    | nil => rfl
    | cons y ys ih => simp [List.dropWhile, isImgRelease_readPlane]

/-! ## Release of native objects (C2) -/

/-- C9. On the successful path of `readHEIC` for a 1x1 image the three bytes of the
plane are read (by `image.clone()`) after the decoded image has been released,
and the bytes of the returned image are then not defined by the plane;
`heicToCvMat` and `convert_heic_to_png` never read the plane after the
release, whatever the outcomes and dimensions. -/
theorem readHEIC_reads_after_release :
    (readHEIC ⟨true, true, true, true, some [1, 2, 3], 3, 1, 1⟩).trace =
      [Event.acquire Obj.ctx, Event.acquire Obj.handle, Event.acquire Obj.img,
       Event.release Obj.img, Event.release Obj.handle, Event.release Obj.ctx,
       Event.readPlane 0 3] ∧
    readsAfterRelease (readHEIC ⟨true, true, true, true, some [1, 2, 3], 3, 1, 1⟩).trace = true ∧
    (readHEIC ⟨true, true, true, true, some [1, 2, 3], 3, 1, 1⟩).result = some none ∧
    (∀ c : Codec, readsAfterRelease (heicToCvMat c).trace = false) ∧
    (∀ (c : Codec) (input_path : List Char) (fopenOk pngOk infoOk : Bool) (pngFault : Option Nat),
      readsAfterRelease
        (convert_heic_to_png input_path c fopenOk pngOk infoOk pngFault).trace = false) := by
  refine ⟨by decide, by decide, by decide, ?_, ?_⟩
  · intro c
    simp only [heicToCvMat]
    repeat' split
    all_goals simp [readsAfterRelease,
        List.dropWhile, dropWhile_planeReads_append, isImgRelease_acquire, isImgRelease_release,
        isImgRelease_readPlane, isPlaneRead_acquire, isPlaneRead_release]
  · intro c input_path fopenOk pngOk infoOk pngFault
    obtain ⟨output_path, hout⟩ := outputPath_isSome input_path
    simp only [convert_heic_to_png, hout]
    repeat' split
    all_goals simp [readsAfterRelease,
        List.dropWhile, dropWhile_planeReads_append, isImgRelease_acquire, isImgRelease_release,
        isImgRelease_readPlane, isPlaneRead_acquire, isPlaneRead_release]

end QRCodeReader
